import Mathlib

/-!
Verification of the chunking and parallel-dispatch pipeline of
doc-proofreader (doc_proofreader/chunk_utils.py,
doc_proofreader/proofread_document.py,
doc_proofreader/proofread_document_inline.py).

Strings are modelled by Lean `String` (a sequence of Unicode scalar
characters, matching Python `str` as a sequence of code points for all
inputs considered here).  Python `int` arithmetic is modelled by `Nat`/`Int`
(Python integers are unbounded).  The two floating-point constants of the
source (`5.5` in `parse_chunk_size` and `1.5` in `validate_chunk_size`) are
dyadic rationals, so `int(number * 5.5)` equals `11 * number / 2` rounded
toward zero and `chunk_size > optimal * 1.5` iff `2 * chunk_size >
3 * optimal`, exactly, whenever the products fit in 53 bits of mantissa
(true for every value exercised in this development); the embedding uses
the exact rational semantics.  `int(context_window * 0.3)` in
`get_optimal_chunk_size` is modelled as `context_window * 3 / 10`; `0.3`
is not a dyadic rational, so Python's value can be one smaller at isolated
inputs (e.g. `context_window = 10`), which affects none of the properties
proved here (positivity thresholds and ceilings are identical in both
semantics).
-/

namespace DocProofreader

/-- ASCII lower-casing of one character, modelling Python `str.lower` on the
ASCII range (the only characters relevant to the chunk-size grammar). -/
def asciiLowerChar (c : Char) : Char :=
  if 65 ≤ c.toNat ∧ c.toNat ≤ 90 then Char.ofNat (c.toNat + 32) else c

/-- `s.lower()` restricted to ASCII case mapping. -/
def asciiLower (s : String) : String :=
  String.mk (s.data.map asciiLowerChar)

/-- Is `c` an ASCII decimal digit?  Models `\d` of the source regex
`^(\d+)([wc])$` (Python `\d` also accepts non-ASCII Unicode decimal digits;
none of the claims exercise those). -/
def isDigitChar (c : Char) : Bool :=
  48 ≤ c.toNat && c.toNat ≤ 57

/-- Numeric value of a digit string, modelling Python `int(...)` on the
group captured by `(\d+)`. -/
def natOfDigits (ds : List Char) : Nat :=
  ds.foldl (fun acc c => acc * 10 + (c.toNat - '0'.toNat)) 0

/-- Match `^(\d+)([wc])$` against an (already lower-cased) character list:
returns the digit group and the unit character on success. -/
def matchNumUnit (cs : List Char) : Option (List Char × Char) :=
  match cs.reverse with
  | [] => none
  | u :: revDigits =>
    let digits := revDigits.reverse
    if (u = 'w' ∨ u = 'c') ∧ digits ≠ [] ∧ (∀ d ∈ digits, isDigitChar d) then
      some (digits, u)
    else
      none

/-- Model of `chunk_utils.parse_chunk_size`.  `'auto'` returns `0` (the
signal for auto-calculation); `'Nw'` returns `int(N * 5.5)` (exactly
`11 * N / 2` with truncation); `'Nc'` returns `N`; anything else raises
`ValueError`, modelled as `Except.error` carrying the message text. -/
def parse_chunk_size (chunk_arg : String) : Except String Nat :=
  let low := asciiLower chunk_arg
  if low = "auto" then
    Except.ok 0
  else
    match matchNumUnit low.data with
    | some (digits, u) =>
      let number := natOfDigits digits
      if u = 'w' then
        Except.ok (number * 11 / 2)
      else
        Except.ok number
    | none =>
      Except.error ("Invalid chunk format: '" ++ chunk_arg ++
        "'. Use format like '5000w' (words) or '30000c' (characters) or 'auto'")

/-- Does `pat` occur as a contiguous substring of `s`?  Models Python's
`pat in s`. -/
def strContains (s pat : String) : Bool :=
  decide (List.IsInfix pat.data s.data)

/-- The per-model character ceiling of `chunk_utils.get_optimal_chunk_size`
(the second argument of each `min` in the source's if/elif chain). -/
def modelCeiling (model_name : String) : Nat :=
  if strContains model_name "gemini-2.5" then 80000
  else if strContains model_name "gemini" then 60000
  else if strContains model_name "claude" then 50000
  else if strContains model_name "gpt-5" then 70000
  else if strContains model_name "gpt-4o" then 40000
  else if strContains model_name "gpt-4" then 20000
  else 30000

/-- Model of `chunk_utils.get_optimal_chunk_size`:
`usable_tokens = int(context_window * 0.3)`,
`calculated_chars = usable_tokens * 4`, then `min` with the per-model
ceiling.  (See the module comment for the `0.3` rounding caveat.) -/
def get_optimal_chunk_size (model_name : String) (context_window : Nat) : Nat :=
  let usable_tokens := context_window * 3 / 10
  let calculated_chars := usable_tokens * 4
  min calculated_chars (modelCeiling model_name)

/-- Model of `chunk_utils.validate_chunk_size`: returns
`(is_valid, warning_message)`.  The float comparison
`chunk_size > optimal * 1.5` is expressed exactly as
`2 * chunk_size > 3 * optimal`. -/
def validate_chunk_size (chunk_size : Nat) (model_name : String)
    (context_window : Nat) : Bool × String :=
  let optimal := get_optimal_chunk_size model_name context_window
  if chunk_size ≤ 1000 then
    (false, "Chunk size too small (" ++ toString chunk_size ++
      " chars). Minimum recommended: 5000c")
  else if 2 * chunk_size > 3 * optimal then
    (false, "Chunk size too large (" ++ toString chunk_size ++
      " chars). Maximum for " ++ model_name ++ ": " ++ toString optimal ++ "c")
  else if chunk_size > optimal then
    (true, "⚠️  Large chunk size (" ++ toString chunk_size ++
      " chars). Optimal for " ++ model_name ++ ": " ++ toString optimal ++ "c")
  else
    (true, "")

/-! ### Document model and the formatting codec

A python-docx paragraph is read by the source only through `para.runs`,
each run through `run.text`, `run.bold`, `run.italic`.  A `Run` models one
run (python-docx `bold`/`italic` may be `None`, which the source's truth
tests treat exactly like `False`, so two booleans suffice), and a paragraph
is a list of runs. -/

/-- One rich-text run: the data `docx_to_chunks` and
`apply_formatted_text_to_paragraph` exchange. -/
structure Run where
  text : String
  bold : Bool
  italic : Bool
deriving DecidableEq, Repr

/-- A paragraph, as the source reads it: its ordered list of runs. -/
abbrev Para := List Run

/-- The tag wrapping applied to one run by the run loop of
`docx_to_chunks` (both copies: `proofread_document.py` and
`proofread_document_inline.py` contain the identical function). -/
def encodeRun (r : Run) : String :=
  if r.bold && r.italic then "<b><i>" ++ r.text ++ "</i></b>"
  else if r.bold then "<b>" ++ r.text ++ "</b>"
  else if r.italic then "<i>" ++ r.text ++ "</i>"
  else r.text

/-- The paragraph separator appended after every encoded paragraph:
two spaces and a newline. -/
def paraSep : String := "  \n"

/-- `current_paragraph` after the run loop of `docx_to_chunks`:
the concatenated run encodings. -/
def encodeParaBody (p : Para) : String :=
  p.foldl (fun acc r => acc ++ encodeRun r) ""

/-- `current_paragraph` after the separator append: the encoded paragraph
as accumulated into `current_chunk`. -/
def encodePara (p : Para) : String :=
  encodeParaBody p ++ paraSep

/-- The paragraph loop of `docx_to_chunks`: accumulate encoded paragraphs
into `current_chunk`; after each paragraph, if
`len(current_chunk) > chunk_size` flush `current_chunk` as one chunk;
finally flush a non-empty remainder. -/
def docx_to_chunks_go (chunk_size : Int) : List Para → String → List String
  | [], current_chunk => if current_chunk = "" then [] else [current_chunk]
  | p :: ps, current_chunk =>
    let appended := current_chunk ++ encodePara p
    if (appended.length : Int) > chunk_size then
      appended :: docx_to_chunks_go chunk_size ps ""
    else
      docx_to_chunks_go chunk_size ps appended

/-- Model of `docx_to_chunks(file_path, chunk_size)` (the identical
function appears in `proofread_document.py` and
`proofread_document_inline.py`): the document file is replaced by the list
of its paragraphs' runs, the only data the function reads.  `chunk_size`
is an `Int` so that non-positive budgets are expressible (the source
performs no validation on it). -/
def docx_to_chunks (paras : List Para) (chunk_size : Int) : List String :=
  docx_to_chunks_go chunk_size paras ""

/-! ### The decoder (`apply_formatted_text_to_paragraph`)

`re.split(r"(<b><i>|<b>|<i>|</b></i>|</b>|</i>)", text)` is modelled by a
left-to-right scanner that, at every position, tries the six tag literals
in the alternation's priority order and otherwise consumes one character
(`tokenize`), followed by grouping of maximal character runs into text
parts (`gatherParts`); this yields exactly the non-empty parts of the
`re.split` result in order, with the captured delimiters as tag parts
(empty text parts, which the Python loop skips because `part` is falsy,
simply do not appear). -/

/-- The six tag literals recognized by the decoder's split pattern. -/
inductive FmtTag where
  | bOpen | iOpen | biOpen | bClose | iClose | biClose
deriving DecidableEq, Repr

/-- One scanner step result: a recognized tag or a single character. -/
inductive Tok where
  | tag (t : FmtTag)
  | chr (c : Char)
deriving DecidableEq, Repr

/-- Does the literal `pat` occur at the very start of `cs`? -/
def startsWith : List Char → List Char → Bool
  | [], _ => true
  | _ :: _, [] => false
  | p :: ps, c :: cs => decide (p = c) && startsWith ps cs

/-- Try to match one of the six tag literals at the current position, in
the alternation's priority order `<b><i> | <b> | <i> | </b></i> | </b> |
</i>`; on success return the tag and the remaining characters. -/
def checkTag (cs : List Char) : Option (FmtTag × List Char) :=
  if startsWith ['<', 'b', '>', '<', 'i', '>'] cs then some (.biOpen, cs.drop 6)
  else if startsWith ['<', 'b', '>'] cs then some (.bOpen, cs.drop 3)
  else if startsWith ['<', 'i', '>'] cs then some (.iOpen, cs.drop 3)
  else if startsWith ['<', '/', 'b', '>', '<', '/', 'i', '>'] cs then some (.biClose, cs.drop 8)
  else if startsWith ['<', '/', 'b', '>'] cs then some (.bClose, cs.drop 4)
  else if startsWith ['<', '/', 'i', '>'] cs then some (.iClose, cs.drop 4)
  else none

/-- The scan loop with explicit fuel (each step consumes at least one
character, so fuel equal to the list length always suffices;
`tokenizeF_fuel` below proves the result is fuel-independent). -/
def tokenizeF : Nat → List Char → List Tok
  | _, [] => []
  | 0, _ :: _ => []
  | n + 1, c :: rest =>
    match checkTag (c :: rest) with
    | some (t, rest2) => .tag t :: tokenizeF n rest2
    | none => .chr c :: tokenizeF n rest

/-- Leftmost scan of the decoder's split pattern
`(<b><i>|<b>|<i>|</b></i>|</b>|</i>)`: at every position try the six
alternatives in priority order, otherwise consume one literal
character. -/
def tokenize (cs : List Char) : List Tok :=
  tokenizeF cs.length cs

/-- A part of the `re.split` result: a captured tag or a (non-empty)
text segment. -/
inductive Part where
  | tag (t : FmtTag)
  | text (cs : List Char)
deriving DecidableEq, Repr

/-- Group maximal runs of scanned characters into text parts. -/
def gatherParts : List Tok → List Part
  | [] => []
  | .tag t :: rest => .tag t :: gatherParts rest
  | .chr c :: rest =>
    match gatherParts rest with
    | .text s :: ps => .text (c :: s) :: ps
    | ps => .text [c] :: ps

/-- Python `str.strip()` considers these whitespace (the characters
relevant here; `str.strip` also strips other Unicode whitespace, which no
claim exercises). -/
def isSpaceChar (c : Char) : Bool :=
  c = ' ' || c = '\t' || c = '\n' || c = '\r' || c.toNat = 11 || c.toNat = 12

/-- The decoder's state-machine loop over split parts: tags flip the
(bold, italic) flags exactly as in the Python `for part in parts` loop; a
text part whose `strip()` is non-empty becomes a run carrying the current
flags. -/
def decodeLoop : Bool → Bool → List Part → List Run
  | _, _, [] => []
  | _, i, .tag .bOpen :: ps => decodeLoop true i ps
  | _, i, .tag .bClose :: ps => decodeLoop false i ps
  | b, _, .tag .iOpen :: ps => decodeLoop b true ps
  | b, _, .tag .iClose :: ps => decodeLoop b false ps
  | _, _, .tag .biOpen :: ps => decodeLoop true true ps
  | _, _, .tag .biClose :: ps => decodeLoop false false ps
  | b, i, .text s :: ps =>
    if s.any (fun c => !isSpaceChar c) then
      ⟨String.mk s, b, i⟩ :: decodeLoop b i ps
    else
      decodeLoop b i ps

/-- Model of `proofread_document_inline.apply_formatted_text_to_paragraph`:
returns the list of runs the source adds to the (cleared) target
paragraph. -/
def apply_formatted_text_to_paragraph (formatted_text : String) : List Run :=
  decodeLoop false false (gatherParts (tokenize formatted_text.data))

/-- Specification shorthand: the token stream the scanner produces for one
encoded run whose text contains no `<` (so the text scans as plain
characters). -/
def runToks (r : Run) : List Tok :=
  match r.bold, r.italic with
  | true, true => Tok.tag .biOpen :: (r.text.data.map Tok.chr ++ [Tok.tag .iClose, Tok.tag .bClose])
  | true, false => Tok.tag .bOpen :: (r.text.data.map Tok.chr ++ [Tok.tag .bClose])
  | false, true => Tok.tag .iOpen :: (r.text.data.map Tok.chr ++ [Tok.tag .iClose])
  | false, false => r.text.data.map Tok.chr

/-- No two consecutive runs are both unformatted (such neighbours encode
with no delimiter between their texts and merge on decode). -/
def noAdjacentPlain : List Run → Bool
  | r :: s :: rest => (r.bold || r.italic || s.bold || s.italic) && noAdjacentPlain (s :: rest)
  | _ => true

/-- The full encoded document text: every paragraph's encoding (body plus
separator) concatenated in order — what `current_chunk` accumulation
walks through. -/
def encodeDocument (paras : List Para) : String :=
  String.join (paras.map encodePara)

/-! ### Sentinel normalization, dispatch and aggregation -/

/-- The "no issues found" sentinel recognized by
`process_chunk_with_llm` (and requested from the model by
`user_prompts.USER_PROMPT`: "If there are no errors in the entire
passage, say that no errors were found."). -/
def sentinel : String := "No errors were found."

/-- Python `str.strip()`: drop leading and trailing whitespace. -/
def pyStrip (s : String) : String :=
  String.mk (((s.data.dropWhile isSpaceChar).reverse.dropWhile isSpaceChar).reverse)

/-- Model of `proofread_document.process_chunk_with_llm` around its
completion call: the argument is the outcome of
`client.create_completion` for this chunk (`.ok` = returned text,
`.error` = raised exception, which propagates); a returned text whose
`strip()` equals the sentinel is replaced by the empty string.  Message
assembly and logging, which do not affect the returned value, are
omitted. -/
def process_chunk_with_llm (completion : Except String String) :
    Except String String :=
  match completion with
  | .ok result => .ok (if pyStrip result = sentinel then "" else result)
  | .error e => .error e

/-- Model of `proofread_document_inline.process_chunk_for_direct_edit`
around its completion call: the completion text is returned unchanged (no
sentinel normalization in inline mode); an exception propagates. -/
def process_chunk_for_direct_edit (completion : Except String String) :
    Except String String :=
  completion

/-- Model of `proofread_document.aggregate_outputs`:
`" ".join(outputs)`. -/
def aggregate_outputs (outputs : List String) : String :=
  String.intercalate " " outputs

/-- Report-mode value stored into `results[i]` by the parallel collector:
the future's result on success, the
`"Error processing chunk {i+1}: {exc}"` fallback when the future raised. -/
def reportChunkResult (complete : Nat → Except String String) (i : Nat) :
    String :=
  match process_chunk_with_llm (complete i) with
  | .ok r => r
  | .error e => "Error processing chunk " ++ toString (i + 1) ++ ": " ++ e

/-- Inline-mode value stored into `corrected_chunks[i]` by the parallel
collector: the future's result on success, the chunk's own original text
(`original_chunks[index]`) when the future raised. -/
def inlineChunkResult (chunks : List String)
    (complete : Nat → Except String String) (i : Nat) : String :=
  match process_chunk_for_direct_edit (complete i) with
  | .ok r => r
  | .error _ => chunks.getD i ""

/-- The `as_completed` collection loop: starting from
`results = [None] * n`, each completed future writes its value into the
slot of its own index.  `order` is the completion order of the futures —
an arbitrary permutation of the indices, decided by the scheduler. -/
def collectIntoSlots (n : Nat) (res : Nat → String) (order : List Nat) :
    List (Option String) :=
  order.foldl (fun acc i => acc.set i (some (res i))) (List.replicate n none)

/-- The parallel branch of `proofread_document` (report mode): one task
per chunk, results collected by completion order `order` into the
pre-sized slot list. -/
def parallel_dispatch_report (chunks : List String)
    (complete : Nat → Except String String) (order : List Nat) :
    List (Option String) :=
  collectIntoSlots chunks.length (reportChunkResult complete) order

/-- The parallel branch of `proofread_document_with_track_changes_mac`
(inline mode). -/
def parallel_dispatch_inline (chunks : List String)
    (complete : Nat → Except String String) (order : List Nat) :
    List (Option String) :=
  collectIntoSlots chunks.length (inlineChunkResult chunks complete) order

/-- The sequential branch of `proofread_document` (report mode): a list
comprehension with no exception handler, so the first raised exception
propagates and aborts the batch — modelled by the fail-fast `mapM` over
`Except`. -/
def sequential_dispatch_report (chunks : List String)
    (complete : Nat → Except String String) : Except String (List String) :=
  (List.range chunks.length).mapM fun i => process_chunk_with_llm (complete i)

/-- The sequential branch of `proofread_document_with_track_changes_mac`
(inline mode): a plain `for` loop appending each result, no exception
handler, so a raised exception propagates and aborts the batch. -/
def sequential_dispatch_inline (chunks : List String)
    (complete : Nat → Except String String) : Except String (List String) :=
  (List.range chunks.length).mapM fun i => process_chunk_for_direct_edit (complete i)

/-! ## Helper lemmas -/

lemma length_pos_of_ne_empty (s : String) (h : s ≠ "") : 0 < s.length := by
  rcases s with ⟨l⟩
  cases l with
  | nil => exact absurd rfl h
  | cons c cs => simp [String.length]

lemma append_paraSep_ne_empty (t : String) : t ++ paraSep ≠ "" := by
  intro h
  have hd := congrArg String.data h
  rw [String.data_append] at hd
  simp [paraSep] at hd

lemma join_cons_shift (l : List String) (a : String) :
    (l.foldl (fun x y => x ++ y) a) = a ++ l.foldl (fun x y => x ++ y) "" := by
  induction l generalizing a with
  | nil => simp
  | cons s l ih =>
    simp only [List.foldl_cons]
    rw [ih (a ++ s), ih ("" ++ s)]
    simp [String.append_assoc]

lemma join_cons (s : String) (l : List String) :
    String.join (s :: l) = s ++ String.join l := by
  simp only [String.join, List.foldl_cons]
  rw [join_cons_shift l ("" ++ s)]
  simp

lemma encodePara_split (p : Para) : encodePara p = encodeParaBody p ++ paraSep := rfl

lemma encodePara_ne_empty (p : Para) : encodePara p ≠ "" :=
  append_paraSep_ne_empty (encodeParaBody p)

lemma docx_go_join (cs : Int) (ps : List Para) (acc : String) :
    String.join (docx_to_chunks_go cs ps acc) =
      acc ++ String.join (ps.map encodePara) := by
  induction ps generalizing acc with
  | nil =>
    by_cases h : acc = "" <;> simp [docx_to_chunks_go, h, String.join]
  | cons p ps ih =>
    simp only [docx_to_chunks_go]
    split
    · rw [join_cons, ih ""]
      simp [List.map_cons, join_cons, String.append_assoc]
    · rw [ih (acc ++ encodePara p)]
      simp [List.map_cons, join_cons, String.append_assoc]

lemma docx_go_shape (cs : Int) (ps : List Para) (acc : String)
    (hacc : acc = "" ∨ (acc ≠ "" ∧ ∃ t, acc = t ++ paraSep)) :
    ∀ c ∈ docx_to_chunks_go cs ps acc, c ≠ "" ∧ ∃ t, c = t ++ paraSep := by
  induction ps generalizing acc with
  | nil =>
    intro c hc
    by_cases h : acc = ""
    · simp [docx_to_chunks_go, h] at hc
    · simp [docx_to_chunks_go, h] at hc
      rcases hacc with h0 | ⟨_, ht⟩
      · exact absurd h0 h
      · exact hc ▸ ⟨h, ht⟩
  | cons p ps ih =>
    have happ : acc ++ encodePara p = (acc ++ encodeParaBody p) ++ paraSep := by
      rw [encodePara_split, String.append_assoc]
    intro c hc
    simp only [docx_to_chunks_go] at hc
    split at hc
    · rcases List.mem_cons.mp hc with hc1 | hc2
      · subst hc1
        exact ⟨happ ▸ append_paraSep_ne_empty _, _, happ⟩
      · exact ih "" (Or.inl rfl) c hc2
    · exact ih (acc ++ encodePara p)
        (Or.inr ⟨happ ▸ append_paraSep_ne_empty _, _, happ⟩) c hc

lemma collect_get_not_mem (res : Nat → String) (order : List Nat)
    (acc : List (Option String)) (j : Nat) (hj : j ∉ order) :
    (order.foldl (fun a i => a.set i (some (res i))) acc)[j]? = acc[j]? := by
  induction order generalizing acc with
  | nil => rfl
  | cons i rest ih =>
    simp only [List.foldl_cons]
    rw [ih _ fun h => hj (List.mem_cons_of_mem _ h)]
    exact List.getElem?_set_ne fun h => hj (by rw [← h]; exact List.mem_cons_self _ _)

lemma collect_get_mem (res : Nat → String) (order : List Nat)
    (acc : List (Option String)) (j : Nat) (hj : j ∈ order) :
    (order.foldl (fun a i => a.set i (some (res i))) acc)[j]? =
      if j < acc.length then some (some (res j)) else none := by
  induction order generalizing acc with
  | nil => cases hj
  | cons i rest ih =>
    simp only [List.foldl_cons]
    by_cases hjr : j ∈ rest
    · rw [ih _ hjr]
      simp [List.length_set]
    · have hij : j = i := by
        rcases List.mem_cons.mp hj with h | h
        · exact h
        · exact absurd h hjr
      subst hij
      rw [collect_get_not_mem res rest _ j hjr]
      by_cases hlt : j < acc.length
      · rw [if_pos hlt]
        exact List.getElem?_set_eq_of_lt _ hlt
      · rw [if_neg hlt]
        exact List.getElem?_eq_none (by simp [List.length_set]; omega)

lemma parallel_report_get (chunks : List String)
    (complete : Nat → Except String String) (order : List Nat)
    (h : order.Perm (List.range chunks.length)) (j : Nat)
    (hj : j < chunks.length) :
    (parallel_dispatch_report chunks complete order)[j]? =
      some (some (reportChunkResult complete j)) := by
  rw [parallel_dispatch_report, collectIntoSlots,
    collect_get_mem _ _ _ _ (h.mem_iff.mpr (List.mem_range.mpr hj))]
  simp [hj]

lemma parallel_inline_get (chunks : List String)
    (complete : Nat → Except String String) (order : List Nat)
    (h : order.Perm (List.range chunks.length)) (j : Nat)
    (hj : j < chunks.length) :
    (parallel_dispatch_inline chunks complete order)[j]? =
      some (some (inlineChunkResult chunks complete j)) := by
  rw [parallel_dispatch_inline, collectIntoSlots,
    collect_get_mem _ _ _ _ (h.mem_iff.mpr (List.mem_range.mpr hj))]
  simp [hj]

/-! ## Claim theorems -/

/-- C4: for every chunk sequence and every completion order of the
concurrent worker tasks (any permutation of the indices, i.e. arbitrary
interleavings and artificial delays), the collected result sequence is
indexed identically to the input: slot `i` holds exactly the result
produced by chunk `i`'s task. -/
theorem parallel_dispatch_order (chunks : List String)
    (complete : Nat → Except String String) (order : List Nat)
    (h : order.Perm (List.range chunks.length)) :
    parallel_dispatch_report chunks complete order =
      (List.range chunks.length).map fun i => some (reportChunkResult complete i) := by
  apply List.ext_getElem?
  intro j
  by_cases hj : j < chunks.length
  · rw [parallel_report_get chunks complete order h j hj]
    simp [List.getElem?_range, hj]
  · have hmem : j ∉ order := fun hm => hj (List.mem_range.mp (h.mem_iff.mp hm))
    rw [parallel_dispatch_report, collectIntoSlots, collect_get_not_mem _ _ _ _ hmem]
    have h1 : (List.replicate chunks.length (none : Option String))[j]? = none :=
      List.getElem?_eq_none (by simpa using hj)
    have h2 : ((List.range chunks.length).map
        fun i => some (reportChunkResult complete i))[j]? = none :=
      List.getElem?_eq_none (by simpa using hj)
    rw [h1, h2]

/-- C4 witness: two chunks, completion order reversed. -/
theorem parallel_dispatch_order_witness :
    parallel_dispatch_report ["a", "b"]
        (fun i => if i = 0 then .ok "ra" else .ok "rb") [1, 0] =
      (List.range 2).map fun i =>
        some (reportChunkResult (fun i => if i = 0 then .ok "ra" else .ok "rb") i) :=
  parallel_dispatch_order ["a", "b"] _ [1, 0] (List.Perm.swap 0 1 [])

/-- C1 counterexample: in the sequential dispatch path (single chunk or
concurrency disabled) a failing completion call aborts the whole batch —
no other chunk's result is delivered and the failing chunk's slot never
receives a fallback value, in either mode. -/
theorem sequential_failure_aborts_counterexample :
    sequential_dispatch_report ["a", "b"]
        (fun i => if i = 1 then .error "boom" else .ok "x") = .error "boom" ∧
    sequential_dispatch_inline ["a", "b"]
        (fun i => if i = 1 then .error "boom" else .ok "x") = .error "boom" :=
  ⟨rfl, rfl⟩

/-- C1 amended: in the *concurrent* dispatch path, a failing completion
call does not abort the batch: the failing chunk's slot receives the
fallback value (report mode: `"Error processing chunk {i+1}: {cause}"`;
inline mode: the chunk's own original text) and every other chunk whose
call succeeds still yields its own result — for every completion order.
In the sequential path the exception propagates instead (see the
counterexample). -/
theorem parallel_failure_isolation (chunks : List String)
    (complete : Nat → Except String String) (order : List Nat) (k : Nat)
    (e : String) (horder : order.Perm (List.range chunks.length))
    (hk : k < chunks.length) (hke : complete k = .error e) :
    (parallel_dispatch_report chunks complete order)[k]? =
      some (some ("Error processing chunk " ++ toString (k + 1) ++ ": " ++ e)) ∧
    (parallel_dispatch_inline chunks complete order)[k]? =
      some (some (chunks.getD k "")) ∧
    ∀ j, j < chunks.length → j ≠ k → ∀ v, complete j = .ok v →
      (parallel_dispatch_report chunks complete order)[j]? =
        some (some (if pyStrip v = sentinel then "" else v)) ∧
      (parallel_dispatch_inline chunks complete order)[j]? = some (some v) := by
  refine ⟨?_, ?_, ?_⟩
  · rw [parallel_report_get chunks complete order horder k hk]
    simp [reportChunkResult, process_chunk_with_llm, hke]
  · rw [parallel_inline_get chunks complete order horder k hk]
    simp [inlineChunkResult, process_chunk_for_direct_edit, hke]
  · intro j hj _ v hv
    constructor
    · rw [parallel_report_get chunks complete order horder j hj]
      simp [reportChunkResult, process_chunk_with_llm, hv]
    · rw [parallel_inline_get chunks complete order horder j hj]
      simp [inlineChunkResult, process_chunk_for_direct_edit, hv]

/-- C1 amended, witness: two chunks, the second fails, reversed completion
order. -/
theorem parallel_failure_isolation_witness :
    (parallel_dispatch_report ["a", "b"]
        (fun i => if i = 1 then .error "boom" else .ok "x") [1, 0])[1]? =
      some (some ("Error processing chunk " ++ toString (1 + 1) ++ ": " ++ "boom")) ∧
    (parallel_dispatch_inline ["a", "b"]
        (fun i => if i = 1 then .error "boom" else .ok "x") [1, 0])[1]? =
      some (some ((["a", "b"] : List String).getD 1 "")) ∧
    (∀ j, j < (["a", "b"] : List String).length → j ≠ 1 → ∀ v,
      (if j = 1 then Except.error "boom" else Except.ok "x") = Except.ok v →
      (parallel_dispatch_report ["a", "b"]
          (fun i => if i = 1 then .error "boom" else .ok "x") [1, 0])[j]? =
        some (some (if pyStrip v = sentinel then "" else v)) ∧
      (parallel_dispatch_inline ["a", "b"]
          (fun i => if i = 1 then .error "boom" else .ok "x") [1, 0])[j]? =
        some (some v)) :=
  parallel_failure_isolation ["a", "b"] _ [1, 0] 1 "boom"
    (List.Perm.swap 0 1 []) (by decide) rfl

/-- C2 counterexample: the code's sentinel is `"No errors were found."`,
not `"No issues were found."` — a single-chunk dispatch whose stub
completion returns `"No issues were found."` aggregates to that very
string, not to the empty report the claim asserts. -/
theorem sentinel_mismatch_counterexample :
    Except.map aggregate_outputs
      (sequential_dispatch_report ["one paragraph  \n"]
        (fun _ => Except.ok "No issues were found.")) =
      Except.ok "No issues were found." ∧
    ("No issues were found." : String) ≠ "" :=
  ⟨rfl, by decide⟩

/-- C2 amended: a completion result equal to the configured sentinel
`"No errors were found."` is normalized to the empty string, and a
single-chunk dispatch with a stub completion returning the sentinel
aggregates to the empty report. -/
theorem sentinel_normalization (r : String) (hr : r = sentinel) (chunk : String) :
    process_chunk_with_llm (.ok r) = .ok "" ∧
    Except.map aggregate_outputs
      (sequential_dispatch_report [chunk] (fun _ => Except.ok sentinel)) =
      Except.ok "" := by
  subst hr
  exact ⟨rfl, rfl⟩

/-- C2 amended, witness. -/
theorem sentinel_normalization_witness :
    process_chunk_with_llm (.ok sentinel) = .ok "" ∧
    Except.map aggregate_outputs
      (sequential_dispatch_report ["x  \n"] (fun _ => Except.ok sentinel)) =
      Except.ok "" :=
  sentinel_normalization sentinel rfl "x  \n"

/-- C3: for every document (ordered run-attributed paragraph sequence) and
every chunk-size budget, concatenating the chunks produced by
`docx_to_chunks` in order yields exactly the full encoded document text —
no characters gained, lost or reordered. -/
theorem chunks_concat_complete (paras : List Para) (chunk_size : Int) :
    String.join (docx_to_chunks paras chunk_size) = encodeDocument paras := by
  rw [docx_to_chunks, encodeDocument, docx_go_join]
  simp

/-- C6 counterexample: `docx_to_chunks` called with a non-positive budget
does not fail — it returns an ordinary chunk sequence (the claimed
InvalidConfiguration error does not exist in the code). -/
theorem docx_to_chunks_nonpositive_counterexample :
    docx_to_chunks [[⟨"hello", false, false⟩]] 0 = ["hello  \n"] ∧
    docx_to_chunks [[⟨"hello", false, false⟩]] (-7) = ["hello  \n"] :=
  ⟨rfl, rfl⟩

/-- C6 amended: the chunker performs no budget validation; with
`chunk_size ≤ 0` it raises no error and instead flushes after every
paragraph, emitting one chunk per paragraph. -/
theorem docx_to_chunks_nonpositive (paras : List Para) (chunk_size : Int)
    (h : chunk_size ≤ 0) :
    docx_to_chunks paras chunk_size = paras.map encodePara := by
  rw [docx_to_chunks]
  induction paras with
  | nil => rfl
  | cons p ps ih =>
    simp only [docx_to_chunks_go]
    have hne : ("" ++ encodePara p) ≠ "" := by
      simpa using encodePara_ne_empty p
    have hlen : 0 < ("" ++ encodePara p).length := length_pos_of_ne_empty _ hne
    rw [if_pos (by omega)]
    simp [ih]

/-- C6 amended, witness at budget `0`. -/
theorem docx_to_chunks_nonpositive_witness :
    docx_to_chunks [[⟨"hi", false, false⟩]] 0 =
      List.map encodePara [[⟨"hi", false, false⟩]] :=
  docx_to_chunks_nonpositive [[⟨"hi", false, false⟩]] 0 (by decide)

/-- C10: every chunk emitted by `docx_to_chunks` is a non-empty string
ending with the paragraph separator `"  \n"` (it is a concatenation of
whole separator-terminated encoded paragraphs). -/
theorem docx_to_chunks_chunk_shape (paras : List Para) (chunk_size : Int) :
    ∀ c ∈ docx_to_chunks paras chunk_size, c ≠ "" ∧ ∃ t, c = t ++ paraSep :=
  docx_go_shape chunk_size paras "" (Or.inl rfl)

/-- C10 witness: the single chunk of a one-paragraph document. -/
theorem docx_to_chunks_chunk_shape_witness :
    ("hello  \n" : String) ≠ "" ∧ ∃ t, ("hello  \n" : String) = t ++ paraSep :=
  docx_to_chunks_chunk_shape [[⟨"hello", false, false⟩]] 100 "hello  \n"
    (by rw [show docx_to_chunks [[⟨"hello", false, false⟩]] 100 = ["hello  \n"] from rfl]
        exact List.mem_singleton.mpr rfl)

/-! Budget-parsing helper lemmas and claims C5, C7, C8 -/

lemma eq_empty_of_length_zero (s : String) (h : s.length = 0) : s = "" := by
  rcases s with ⟨l⟩
  cases l with
  | nil => rfl
  | cons c cs => simp [String.length] at h

lemma append_ne_empty_of_left (s t : String) (h : s ≠ "") : s ++ t ≠ "" := by
  intro he
  apply h
  have hl := congrArg String.length he
  rw [String.length_append] at hl
  have h0 : ("" : String).length = 0 := rfl
  exact eq_empty_of_length_zero s (by omega)

lemma digit_lower (d : Char) (h : isDigitChar d = true) : asciiLowerChar d = d := by
  simp only [isDigitChar, Bool.and_eq_true, decide_eq_true_eq] at h
  simp only [asciiLowerChar]
  rw [if_neg (by omega)]

lemma map_lower_digits (ds : List Char) (h : ∀ d ∈ ds, isDigitChar d = true) :
    ds.map asciiLowerChar = ds := by
  induction ds with
  | nil => rfl
  | cons d ds ih =>
    rw [List.map_cons, digit_lower d (h d (List.mem_cons_self _ _)),
      ih fun x hx => h x (List.mem_cons_of_mem _ hx)]

lemma parse_num_unit (ds : List Char) (u : Char) (hds : ds ≠ [])
    (hdig : ∀ d ∈ ds, isDigitChar d = true) (hu : u = 'w' ∨ u = 'c') :
    matchNumUnit (ds ++ [u]) = some (ds, u) := by
  unfold matchNumUnit
  rw [show (ds ++ [u]).reverse = u :: ds.reverse by simp]
  simp only [List.reverse_reverse]
  rw [if_pos ⟨hu, hds, fun d hd => hdig d hd⟩]

lemma parse_chunk_size_eval (ds : List Char) (U u : Char) (hds : ds ≠ [])
    (hdig : ∀ d ∈ ds, isDigitChar d = true) (hU : asciiLowerChar U = u)
    (hu : u = 'w' ∨ u = 'c') :
    parse_chunk_size (String.mk (ds ++ [U])) =
      Except.ok (if u = 'w' then natOfDigits ds * 11 / 2 else natOfDigits ds) := by
  have hlow : asciiLower (String.mk (ds ++ [U])) = String.mk (ds ++ [u]) := by
    simp [asciiLower, List.map_append, map_lower_digits ds hdig, hU]
  have hauto : asciiLower (String.mk (ds ++ [U])) ≠ "auto" := by
    rw [hlow]
    intro h
    have hd : ds ++ [u] = ['a', 'u', 't', 'o'] := congrArg String.data h
    have hr := congrArg List.reverse hd
    simp at hr
    rcases hu with rfl | rfl <;> simp at hr
  unfold parse_chunk_size
  rw [if_neg hauto, hlow]
  rw [show (String.mk (ds ++ [u])).data = ds ++ [u] from rfl,
    parse_num_unit ds u hds hdig hu]
  rcases hu with rfl | rfl <;> rfl

/-- C5 counterexample: the code truncates `N * 5.5` (Python `int()`), it
does not round it — `"1w"` resolves to `5` characters, while
`round(1 * 5.5) = 6`. -/
theorem parse_words_counterexample :
    parse_chunk_size "1w" = Except.ok 5 ∧ parse_chunk_size "1w" ≠ Except.ok 6 := by
  refine ⟨rfl, fun h => ?_⟩
  rw [show parse_chunk_size "1w" = Except.ok 5 from rfl] at h
  exact absurd (Except.ok.inj h) (by decide)

/-- C5 amended: `"Nw"` (case-insensitively) resolves to
`⌊N * 5.5⌋ = 11N / 2` characters (Python `int()` truncation, not
rounding), `"Nc"` to `N` characters, and every string that is neither
`auto` (case-insensitively) nor matching `^\d+[wc]$` fails with a
`ValueError`. -/
theorem parse_chunk_size_amended (ds : List Char) (hds : ds ≠ [])
    (hdig : ∀ d ∈ ds, isDigitChar d = true) (s : String)
    (hs1 : asciiLower s ≠ "auto")
    (hs2 : matchNumUnit (asciiLower s).data = none) :
    parse_chunk_size (String.mk (ds ++ ['w'])) = Except.ok (natOfDigits ds * 11 / 2) ∧
    parse_chunk_size (String.mk (ds ++ ['W'])) = Except.ok (natOfDigits ds * 11 / 2) ∧
    parse_chunk_size (String.mk (ds ++ ['c'])) = Except.ok (natOfDigits ds) ∧
    parse_chunk_size (String.mk (ds ++ ['C'])) = Except.ok (natOfDigits ds) ∧
    (parse_chunk_size s).isOk = false := by
  refine ⟨?_, ?_, ?_, ?_, ?_⟩
  · rw [parse_chunk_size_eval ds 'w' 'w' hds hdig (by decide) (Or.inl rfl)]
    rw [if_pos rfl]
  · rw [parse_chunk_size_eval ds 'W' 'w' hds hdig (by decide) (Or.inl rfl)]
    rw [if_pos rfl]
  · rw [parse_chunk_size_eval ds 'c' 'c' hds hdig (by decide) (Or.inr rfl)]
    rw [if_neg (by decide)]
  · rw [parse_chunk_size_eval ds 'C' 'c' hds hdig (by decide) (Or.inr rfl)]
    rw [if_neg (by decide)]
  · unfold parse_chunk_size
    rw [if_neg hs1, hs2]
    rfl

/-- C5 amended, witness: `"5000w"` and the ill-formed `"bogus"`. -/
theorem parse_chunk_size_amended_witness :
    parse_chunk_size "5000w" = Except.ok 27500 ∧
    (parse_chunk_size "bogus").isOk = false := by
  have h := parse_chunk_size_amended ['5', '0', '0', '0'] (by decide) (by decide)
    "bogus" (by decide) (by decide)
  exact ⟨h.1, h.2.2.2.2⟩

/-- C7 counterexample: the resolver accepts `"0c"` and resolves it to `0`,
and in auto mode a context window of `0` tokens also yields `0` — a
resolved budget is not always positive. -/
theorem resolved_budget_counterexample :
    parse_chunk_size "0c" = Except.ok 0 ∧ get_optimal_chunk_size "gpt-4" 0 = 0 :=
  ⟨rfl, rfl⟩

/-- C7 amended: a budget resolved from `"Nw"`/`"Nc"` (case-insensitively)
with `N ≥ 1` is positive; an auto budget is positive whenever the context
window is at least 4 tokens, and it never exceeds the model-specific
ceiling. -/
theorem resolved_budget_positive (ds : List Char) (U u : Char) (hds : ds ≠ [])
    (hdig : ∀ d ∈ ds, isDigitChar d = true) (hU : asciiLowerChar U = u)
    (hu : u = 'w' ∨ u = 'c') (hpos : 0 < natOfDigits ds)
    (name : String) (cw cw4 : Nat) (h4 : 4 ≤ cw4) :
    (∃ k, parse_chunk_size (String.mk (ds ++ [U])) = Except.ok k ∧ 0 < k) ∧
    0 < get_optimal_chunk_size name cw4 ∧
    get_optimal_chunk_size name cw ≤ modelCeiling name := by
  refine ⟨?_, ?_, ?_⟩
  · rw [parse_chunk_size_eval ds U u hds hdig hU hu]
    refine ⟨_, rfl, ?_⟩
    rcases hu with rfl | rfl
    · rw [if_pos rfl]; omega
    · rw [if_neg (by decide)]; exact hpos
  · have hceil : 20000 ≤ modelCeiling name := by
      unfold modelCeiling
      split_ifs <;> omega
    simp only [get_optimal_chunk_size]
    omega
  · simp only [get_optimal_chunk_size]
    exact Nat.min_le_right _ _

/-- C7 amended, witness. -/
theorem resolved_budget_positive_witness :
    (∃ k, parse_chunk_size "5w" = Except.ok k ∧ 0 < k) ∧
    0 < get_optimal_chunk_size "claude-3" 4 ∧
    get_optimal_chunk_size "claude-3" 1000000 ≤ modelCeiling "claude-3" :=
  resolved_budget_positive ['5'] 'w' 'w' (by decide) (by decide) (by decide)
    (Or.inl rfl) (by decide) "claude-3" 1000000 4 (by decide)

/-- C8: `validate_chunk_size` rejects (`ok = false`) any budget `≤ 1000`
chars, and otherwise any budget above 1.5× the model-derived optimum; a
budget above the optimum but within the 1.5× ceiling passes with a
non-empty warning; any other budget above 1000 passes with an empty
message.  Concretely: 500 chars is rejected; for gpt-4 at a 100000-token
window (optimum 20000), 1.6× the optimum (32000) is rejected and 1.2× the
optimum (24000) is accepted with a warning. -/
theorem validate_chunk_size_spec (cs : Nat) (name : String) (cw : Nat) :
    ((cs ≤ 1000 ∨ 2 * cs > 3 * get_optimal_chunk_size name cw) →
      (validate_chunk_size cs name cw).1 = false) ∧
    (1000 < cs → 2 * cs ≤ 3 * get_optimal_chunk_size name cw →
      get_optimal_chunk_size name cw < cs →
      (validate_chunk_size cs name cw).1 = true ∧
      (validate_chunk_size cs name cw).2 ≠ "") ∧
    (1000 < cs → cs ≤ get_optimal_chunk_size name cw →
      validate_chunk_size cs name cw = (true, "")) ∧
    (validate_chunk_size 500 name cw).1 = false ∧
    (validate_chunk_size 32000 "gpt-4" 100000).1 = false ∧
    (validate_chunk_size 24000 "gpt-4" 100000).1 = true ∧
    (validate_chunk_size 24000 "gpt-4" 100000).2 ≠ "" := by
  refine ⟨?_, ?_, ?_, ?_, by decide, by decide, by decide⟩
  · intro h
    simp only [validate_chunk_size]
    split_ifs <;> first | rfl | omega
  · intro h1 h2 h3
    simp only [validate_chunk_size]
    split_ifs <;> first
      | omega
      | exact ⟨rfl, by
          apply append_ne_empty_of_left
          apply append_ne_empty_of_left
          apply append_ne_empty_of_left
          apply append_ne_empty_of_left
          apply append_ne_empty_of_left
          apply append_ne_empty_of_left
          decide⟩
  · intro h1 h2
    simp only [validate_chunk_size]
    split_ifs <;> first | omega | rfl
  · simp only [validate_chunk_size]
    rw [if_pos (by omega)]

/-- C8, witness: gpt-4 at a 100000-token context window (optimum 20000),
budget 24000 = 1.2× the optimum, accepted with a warning. -/
theorem validate_chunk_size_spec_witness :
    (validate_chunk_size 24000 "gpt-4" 100000).1 = true ∧
    (validate_chunk_size 24000 "gpt-4" 100000).2 ≠ "" :=
  (validate_chunk_size_spec 24000 "gpt-4" 100000).2.1 (by decide) (by decide)
    (by decide)

/-! Codec helper lemmas (claim C9) -/

lemma startsWith_iff (pat l : List Char) :
    startsWith pat l = true ↔ ∃ ys, l = pat ++ ys := by
  induction pat generalizing l with
  | nil => simp [startsWith]
  | cons p ps ih =>
    cases l with
    | nil => simp [startsWith]
    | cons c cs =>
      simp only [startsWith, Bool.and_eq_true, decide_eq_true_eq, ih cs,
        List.cons_append, List.cons.injEq]
      constructor
      · rintro ⟨rfl, ys, rfl⟩
        exact ⟨ys, rfl, rfl⟩
      · rintro ⟨ys, rfl, rfl⟩
        exact ⟨rfl, ys, rfl⟩

lemma startsWith_ne_head (p c : Char) (ps cs : List Char) (h : p ≠ c) :
    startsWith (p :: ps) (c :: cs) = false := by
  simp [startsWith, h]

lemma startsWith_length (pat l : List Char) (h : startsWith pat l = true) :
    pat.length ≤ l.length := by
  obtain ⟨ys, rfl⟩ := (startsWith_iff pat l).mp h
  simp

lemma checkTag_length (cs rest : List Char) (t : FmtTag)
    (h : checkTag cs = some (t, rest)) : rest.length + 1 ≤ cs.length := by
  unfold checkTag at h
  split_ifs at h with h1 h2 h3 h4 h5 h6 <;>
    simp only [Option.some.injEq, Prod.mk.injEq] at h
  · obtain ⟨-, rfl⟩ := h
    have := startsWith_length _ _ h1
    simp only [List.length_drop]
    simp at this
    omega
  · obtain ⟨-, rfl⟩ := h
    have := startsWith_length _ _ h2
    simp only [List.length_drop]
    simp at this
    omega
  · obtain ⟨-, rfl⟩ := h
    have := startsWith_length _ _ h3
    simp only [List.length_drop]
    simp at this
    omega
  · obtain ⟨-, rfl⟩ := h
    have := startsWith_length _ _ h4
    simp only [List.length_drop]
    simp at this
    omega
  · obtain ⟨-, rfl⟩ := h
    have := startsWith_length _ _ h5
    simp only [List.length_drop]
    simp at this
    omega
  · obtain ⟨-, rfl⟩ := h
    have := startsWith_length _ _ h6
    simp only [List.length_drop]
    simp at this
    omega

lemma tokenizeF_congr (n : Nat) : ∀ (m : Nat) (cs : List Char),
    cs.length ≤ n → cs.length ≤ m → tokenizeF n cs = tokenizeF m cs := by
  induction n using Nat.strong_induction_on with
  | _ n ih =>
    intro m cs hn hm
    cases cs with
    | nil =>
      cases n <;> cases m <;> rfl
    | cons c rest =>
      obtain ⟨n', rfl⟩ : ∃ n', n = n' + 1 := by
        cases n
        · simp at hn
        · exact ⟨_, rfl⟩
      obtain ⟨m', rfl⟩ : ∃ m', m = m' + 1 := by
        cases m
        · simp at hm
        · exact ⟨_, rfl⟩
      simp only [tokenizeF]
      cases hct : checkTag (c :: rest) with
      | some pr =>
        obtain ⟨t, rest2⟩ := pr
        have hlen := checkTag_length _ _ _ hct
        simp only [List.length_cons] at hn hm hlen
        show Tok.tag t :: tokenizeF n' rest2 = Tok.tag t :: tokenizeF m' rest2
        rw [ih n' (by omega) m' rest2 (by omega) (by omega)]
      | none =>
        simp only [List.length_cons] at hn hm
        show Tok.chr c :: tokenizeF n' rest = Tok.chr c :: tokenizeF m' rest
        rw [ih n' (by omega) m' rest (by omega) (by omega)]

lemma tokenizeF_eq_tokenize (n : Nat) (cs : List Char) (h : cs.length ≤ n) :
    tokenizeF n cs = tokenize cs :=
  tokenizeF_congr n cs.length cs h le_rfl

lemma tokenize_tag_step (cs rest : List Char) (t : FmtTag)
    (h : checkTag cs = some (t, rest)) :
    tokenize cs = Tok.tag t :: tokenize rest := by
  have hlen := checkTag_length cs rest t h
  obtain ⟨c, cs', rfl⟩ : ∃ c cs', cs = c :: cs' := by
    cases cs with
    | nil => simp at hlen
    | cons c cs' => exact ⟨c, cs', rfl⟩
  rw [tokenize, show (c :: cs').length = cs'.length + 1 from rfl]
  simp only [tokenizeF]
  rw [h]
  show Tok.tag t :: tokenizeF cs'.length rest = Tok.tag t :: tokenize rest
  rw [tokenizeF_eq_tokenize cs'.length rest
    (by simp only [List.length_cons] at hlen; omega)]

lemma tokenize_chr_step (c : Char) (rest : List Char)
    (h : checkTag (c :: rest) = none) :
    tokenize (c :: rest) = Tok.chr c :: tokenize rest := by
  rw [tokenize, show (c :: rest).length = rest.length + 1 from rfl]
  simp only [tokenizeF]
  rw [h]
  show Tok.chr c :: tokenizeF rest.length rest = Tok.chr c :: tokenize rest
  rw [show tokenizeF rest.length rest = tokenize rest from rfl]

lemma checkTag_cons_ne (c : Char) (rest : List Char) (h : c ≠ '<') :
    checkTag (c :: rest) = none := by
  have h' : ('<' : Char) ≠ c := Ne.symm h
  simp [checkTag, startsWith, h']

lemma tokenize_text (t xs : List Char) (h : ∀ c ∈ t, c ≠ '<') :
    tokenize (t ++ xs) = t.map Tok.chr ++ tokenize xs := by
  induction t with
  | nil => simp
  | cons c t' ih =>
    rw [List.cons_append,
      tokenize_chr_step c _ (checkTag_cons_ne c _ (h c (List.mem_cons_self _ _))),
      ih fun x hx => h x (List.mem_cons_of_mem _ hx)]
    simp

lemma checkTag_biOpen (xs : List Char) :
    checkTag ('<' :: 'b' :: '>' :: '<' :: 'i' :: '>' :: xs) =
      some (.biOpen, xs) := rfl

lemma checkTag_iOpen (xs : List Char) :
    checkTag ('<' :: 'i' :: '>' :: xs) = some (.iOpen, xs) := rfl

lemma checkTag_iClose (xs : List Char) :
    checkTag ('<' :: '/' :: 'i' :: '>' :: xs) = some (.iClose, xs) := rfl

lemma checkTag_bOpen (xs : List Char) (h : startsWith ['<', 'i', '>'] xs = false) :
    checkTag ('<' :: 'b' :: '>' :: xs) = some (.bOpen, xs) := by
  unfold checkTag
  rw [show startsWith ['<', 'b', '>', '<', 'i', '>'] ('<' :: 'b' :: '>' :: xs) =
    startsWith ['<', 'i', '>'] xs from rfl, h]
  rfl

lemma checkTag_bClose (xs : List Char) (h : startsWith ['<', '/', 'i', '>'] xs = false) :
    checkTag ('<' :: '/' :: 'b' :: '>' :: xs) = some (.bClose, xs) := by
  unfold checkTag
  rw [show startsWith ['<', '/', 'b', '>', '<', '/', 'i', '>'] ('<' :: '/' :: 'b' :: '>' :: xs) =
    startsWith ['<', '/', 'i', '>'] xs from rfl, h]
  rfl

lemma startsWith_closeI_false (l : List Char) (h : ∀ ys, l ≠ '<' :: '/' :: ys) :
    startsWith ['<', '/', 'i', '>'] l = false := by
  cases hsw : startsWith ['<', '/', 'i', '>'] l
  · rfl
  · obtain ⟨ys, rfl⟩ := (startsWith_iff _ _).mp hsw
    exact (h ('i' :: '>' :: ys) (by simp)).elim

lemma encodeParaBody_shift (p : Para) (a : String) :
    p.foldl (fun acc x => acc ++ encodeRun x) a = a ++ encodeParaBody p := by
  induction p generalizing a with
  | nil => simp [encodeParaBody]
  | cons r rs ih =>
    simp only [encodeParaBody, List.foldl_cons]
    rw [ih (a ++ encodeRun r), ih ("" ++ encodeRun r)]
    simp [String.append_assoc]

lemma encodeParaBody_cons (r : Run) (p : Para) :
    encodeParaBody (r :: p) = encodeRun r ++ encodeParaBody p := by
  rw [show encodeParaBody (r :: p) =
      List.foldl (fun acc x => acc ++ encodeRun x) ("" ++ encodeRun r) p from rfl,
    encodeParaBody_shift p ("" ++ encodeRun r)]
  simp

lemma encodeRun_ff (r : Run) (hb : r.bold = false) (hi : r.italic = false) :
    encodeRun r = r.text := by
  simp [encodeRun, hb, hi]

lemma encodeRun_data_tt (r : Run) (hb : r.bold = true) (hi : r.italic = true) :
    (encodeRun r).data =
      '<' :: 'b' :: '>' :: '<' :: 'i' :: '>' ::
        (r.text.data ++ '<' :: '/' :: 'i' :: '>' :: '<' :: '/' :: 'b' :: '>' :: []) := by
  have he : encodeRun r = "<b><i>" ++ r.text ++ "</i></b>" := by
    simp [encodeRun, hb, hi]
  rw [he, String.data_append, String.data_append,
    show ("<b><i>" : String).data = ['<', 'b', '>', '<', 'i', '>'] from rfl,
    show ("</i></b>" : String).data = ['<', '/', 'i', '>', '<', '/', 'b', '>'] from rfl]
  simp

lemma encodeRun_data_tf (r : Run) (hb : r.bold = true) (hi : r.italic = false) :
    (encodeRun r).data =
      '<' :: 'b' :: '>' :: (r.text.data ++ '<' :: '/' :: 'b' :: '>' :: []) := by
  have he : encodeRun r = "<b>" ++ r.text ++ "</b>" := by
    simp [encodeRun, hb, hi]
  rw [he, String.data_append, String.data_append,
    show ("<b>" : String).data = ['<', 'b', '>'] from rfl,
    show ("</b>" : String).data = ['<', '/', 'b', '>'] from rfl]
  simp

lemma encodeRun_data_ft (r : Run) (hb : r.bold = false) (hi : r.italic = true) :
    (encodeRun r).data =
      '<' :: 'i' :: '>' :: (r.text.data ++ '<' :: '/' :: 'i' :: '>' :: []) := by
  have he : encodeRun r = "<i>" ++ r.text ++ "</i>" := by
    simp [encodeRun, hb, hi]
  rw [he, String.data_append, String.data_append,
    show ("<i>" : String).data = ['<', 'i', '>'] from rfl,
    show ("</i>" : String).data = ['<', '/', 'i', '>'] from rfl]
  simp

lemma encode_head_not_slash (p : Para)
    (h : ∀ r ∈ p, ∀ c ∈ r.text.data, c ≠ '<') :
    ∀ ys, (encodeParaBody p).data ≠ '<' :: '/' :: ys := by
  induction p with
  | nil =>
    intro ys hy
    simp [encodeParaBody] at hy
  | cons r rs ih =>
    intro ys hy
    rw [encodeParaBody_cons, String.data_append] at hy
    have htail : ∀ r ∈ rs, ∀ c ∈ r.text.data, c ≠ '<' :=
      fun x hx => h x (List.mem_cons_of_mem _ hx)
    cases hb : r.bold <;> cases hi : r.italic
    · rw [encodeRun_ff r hb hi] at hy
      cases htd : r.text.data with
      | nil =>
        rw [htd] at hy
        simp only [List.nil_append] at hy
        exact ih htail ys hy
      | cons c cs =>
        rw [htd] at hy
        simp only [List.cons_append, List.cons.injEq] at hy
        exact absurd hy.1 (h r (List.mem_cons_self _ _) c (by rw [htd]; exact List.mem_cons_self _ _))
    · rw [encodeRun_data_ft r hb hi] at hy
      simp at hy
    · rw [encodeRun_data_tf r hb hi] at hy
      simp at hy
    · rw [encodeRun_data_tt r hb hi] at hy
      simp at hy

/-- The scanner maps the encoding of a paragraph (whose run texts contain
no `<`) to exactly the per-run token streams, concatenated. -/
lemma tokenize_encode (p : Para)
    (h : ∀ r ∈ p, ∀ c ∈ r.text.data, c ≠ '<') :
    tokenize (encodeParaBody p).data = (p.map runToks).flatten := by
  induction p with
  | nil => rfl
  | cons r rs ih =>
    have htail : ∀ x ∈ rs, ∀ c ∈ x.text.data, c ≠ '<' :=
      fun x hx => h x (List.mem_cons_of_mem _ hx)
    have hrt : ∀ c ∈ r.text.data, c ≠ '<' := h r (List.mem_cons_self _ _)
    have hrs := ih htail
    have hshape : ∀ ys, (encodeParaBody rs).data ≠ '<' :: '/' :: ys :=
      encode_head_not_slash rs htail
    have hclose : startsWith ['<', '/', 'i', '>'] (encodeParaBody rs).data = false :=
      startsWith_closeI_false _ hshape
    rw [encodeParaBody_cons, String.data_append]
    simp only [List.map_cons, List.flatten_cons]
    cases hb : r.bold <;> cases hi : r.italic
    · -- plain run: just text
      rw [encodeRun_ff r hb hi, tokenize_text _ _ hrt, hrs]
      simp [runToks, hb, hi]
    · -- italic only
      rw [encodeRun_data_ft r hb hi]
      simp only [List.cons_append, List.append_assoc, List.nil_append]
      rw [tokenize_tag_step _ _ _ (checkTag_iOpen _), tokenize_text _ _ hrt,
        tokenize_tag_step _ _ _ (checkTag_iClose _), hrs]
      simp [runToks, hb, hi]
    · -- bold only
      rw [encodeRun_data_tf r hb hi]
      simp only [List.cons_append, List.append_assoc, List.nil_append]
      have hopen : startsWith ['<', 'i', '>']
          (r.text.data ++ '<' :: '/' :: 'b' :: '>' :: (encodeParaBody rs).data) = false := by
        cases htd : r.text.data with
        | nil => rfl
        | cons c cs =>
          exact startsWith_ne_head _ _ _ _
            (Ne.symm (hrt c (by rw [htd]; exact List.mem_cons_self _ _)))
      rw [tokenize_tag_step _ _ _ (checkTag_bOpen _ hopen), tokenize_text _ _ hrt,
        tokenize_tag_step _ _ _ (checkTag_bClose _ hclose), hrs]
      simp [runToks, hb, hi]
    · -- bold italic
      rw [encodeRun_data_tt r hb hi]
      simp only [List.cons_append, List.append_assoc, List.nil_append]
      rw [tokenize_tag_step _ _ _ (checkTag_biOpen _), tokenize_text _ _ hrt,
        tokenize_tag_step _ _ _ (checkTag_iClose _),
        tokenize_tag_step _ _ _ (checkTag_bClose _ hclose), hrs]
      simp [runToks, hb, hi]

lemma gather_tag (t : FmtTag) (xs : List Tok) :
    gatherParts (.tag t :: xs) = .tag t :: gatherParts xs := rfl

lemma gather_text_group (t : List Char) (xs : List Tok) (ht : t ≠ [])
    (hxs : xs = [] ∨ ∃ g ys, xs = Tok.tag g :: ys) :
    gatherParts (t.map Tok.chr ++ xs) = Part.text t :: gatherParts xs := by
  induction t with
  | nil => exact absurd rfl ht
  | cons c t' ih =>
    cases t' with
    | nil =>
      rcases hxs with rfl | ⟨g, ys, rfl⟩
      · rfl
      · rfl
    | cons c2 t'' =>
      have ih2 := ih (by simp)
      rw [show (c :: c2 :: t'').map Tok.chr ++ xs =
        Tok.chr c :: ((c2 :: t'').map Tok.chr ++ xs) from rfl]
      rw [show gatherParts (Tok.chr c :: ((c2 :: t'').map Tok.chr ++ xs)) =
        (match gatherParts ((c2 :: t'').map Tok.chr ++ xs) with
         | Part.text s :: ps => Part.text (c :: s) :: ps
         | ps => Part.text [c] :: ps) from rfl]
      rw [ih2]

lemma decode_tag_bOpen (b i : Bool) (ps : List Part) :
    decodeLoop b i (.tag .bOpen :: ps) = decodeLoop true i ps := rfl

lemma decode_tag_bClose (b i : Bool) (ps : List Part) :
    decodeLoop b i (.tag .bClose :: ps) = decodeLoop false i ps := rfl

lemma decode_tag_iOpen (b i : Bool) (ps : List Part) :
    decodeLoop b i (.tag .iOpen :: ps) = decodeLoop b true ps := rfl

lemma decode_tag_iClose (b i : Bool) (ps : List Part) :
    decodeLoop b i (.tag .iClose :: ps) = decodeLoop b false ps := rfl

lemma decode_tag_biOpen (b i : Bool) (ps : List Part) :
    decodeLoop b i (.tag .biOpen :: ps) = decodeLoop true true ps := rfl

lemma decode_text_part (b i : Bool) (s : List Char) (ps : List Part) :
    decodeLoop b i (.text s :: ps) =
      if s.any (fun c => !isSpaceChar c) then
        ⟨String.mk s, b, i⟩ :: decodeLoop b i ps
      else
        decodeLoop b i ps := rfl

lemma noAdjacentPlain_tail (r : Run) (rs : List Run)
    (h : noAdjacentPlain (r :: rs) = true) : noAdjacentPlain rs = true := by
  cases rs with
  | nil => rfl
  | cons s rest =>
    simp only [noAdjacentPlain, Bool.and_eq_true] at h
    exact h.2

lemma noAdjacentPlain_head (r s : Run) (rest : List Run)
    (h : noAdjacentPlain (r :: s :: rest) = true) :
    (r.bold || r.italic || s.bold || s.italic) = true := by
  simp only [noAdjacentPlain, Bool.and_eq_true] at h
  simp [h.1]

lemma runToks_formatted_cons (s : Run) (hs : (s.bold || s.italic) = true)
    (zs : List Tok) : ∃ g ys, runToks s ++ zs = Tok.tag g :: ys := by
  cases hb : s.bold <;> cases hi : s.italic
  · rw [hb, hi] at hs
    simp at hs
  · exact ⟨.iOpen, (s.text.data.map Tok.chr ++ [Tok.tag .iClose]) ++ zs,
      by simp [runToks, hb, hi]⟩
  · exact ⟨.bOpen, (s.text.data.map Tok.chr ++ [Tok.tag .bClose]) ++ zs,
      by simp [runToks, hb, hi]⟩
  · exact ⟨.biOpen, (s.text.data.map Tok.chr ++ [Tok.tag .iClose, Tok.tag .bClose]) ++ zs,
      by simp [runToks, hb, hi]⟩

/-- The decoder's state machine maps the per-run token streams back to the
original runs, provided every text has non-blank content and no two
consecutive runs are both unformatted. -/
lemma decode_runToks (p : Para)
    (hws : ∀ r ∈ p, r.text.data.any (fun c => !isSpaceChar c) = true)
    (hadj : noAdjacentPlain p = true) :
    decodeLoop false false (gatherParts ((p.map runToks).flatten)) = p := by
  induction p with
  | nil => rfl
  | cons r rs ih =>
    have hwr := hws r (List.mem_cons_self _ _)
    have hws' : ∀ x ∈ rs, x.text.data.any (fun c => !isSpaceChar c) = true :=
      fun x hx => hws x (List.mem_cons_of_mem _ hx)
    have ihrs := ih hws' (noAdjacentPlain_tail r rs hadj)
    have htne : r.text.data ≠ [] := by
      intro h0
      rw [h0] at hwr
      simp at hwr
    simp only [List.map_cons, List.flatten_cons]
    cases hb : r.bold <;> cases hi : r.italic
    · -- plain run
      have hxs : (rs.map runToks).flatten = [] ∨
          ∃ g ys, (rs.map runToks).flatten = Tok.tag g :: ys := by
        cases rs with
        | nil => exact Or.inl rfl
        | cons s rest =>
          right
          have hhead := noAdjacentPlain_head r s rest hadj
          rw [hb, hi] at hhead
          simp only [Bool.false_or] at hhead
          simp only [List.map_cons, List.flatten_cons]
          exact runToks_formatted_cons s hhead _
      rw [show runToks r = r.text.data.map Tok.chr from by simp [runToks, hb, hi],
        gather_text_group _ _ htne hxs, decode_text_part, hwr, if_pos rfl, ihrs]
      rcases r with ⟨tx, bo, it⟩
      simp only at hb hi
      rw [hb, hi]
    · -- italic only
      rw [show runToks r =
          Tok.tag .iOpen :: (r.text.data.map Tok.chr ++ [Tok.tag .iClose])
          from by simp [runToks, hb, hi]]
      simp only [List.cons_append, List.append_assoc, List.nil_append]
      rw [gather_tag, decode_tag_iOpen,
        gather_text_group _ _ htne (Or.inr ⟨.iClose, _, rfl⟩),
        decode_text_part, hwr, if_pos rfl, gather_tag, decode_tag_iClose, ihrs]
      rcases r with ⟨tx, bo, it⟩
      simp only at hb hi
      rw [hb, hi]
    · -- bold only
      rw [show runToks r =
          Tok.tag .bOpen :: (r.text.data.map Tok.chr ++ [Tok.tag .bClose])
          from by simp [runToks, hb, hi]]
      simp only [List.cons_append, List.append_assoc, List.nil_append]
      rw [gather_tag, decode_tag_bOpen,
        gather_text_group _ _ htne (Or.inr ⟨.bClose, _, rfl⟩),
        decode_text_part, hwr, if_pos rfl, gather_tag, decode_tag_bClose, ihrs]
      rcases r with ⟨tx, bo, it⟩
      simp only at hb hi
      rw [hb, hi]
    · -- bold italic
      rw [show runToks r =
          Tok.tag .biOpen :: (r.text.data.map Tok.chr ++ [Tok.tag .iClose, Tok.tag .bClose])
          from by simp [runToks, hb, hi]]
      simp only [List.cons_append, List.append_assoc, List.nil_append]
      rw [gather_tag, decode_tag_biOpen,
        gather_text_group _ _ htne (Or.inr ⟨.iClose, _, rfl⟩),
        decode_text_part, hwr, if_pos rfl, gather_tag, decode_tag_iClose,
        gather_tag, decode_tag_bClose, ihrs]
      rcases r with ⟨tx, bo, it⟩
      simp only at hb hi
      rw [hb, hi]

/-- C9 counterexample: decode ∘ encode is not the identity modulo dropped
empty runs — two adjacent unformatted runs merge into one
(`["a","b"] ↦ ["ab"]`), a whitespace-only (but non-empty) run is dropped,
and a run whose text contains a tag literal is reinterpreted as
formatting. -/
theorem roundtrip_counterexample :
    apply_formatted_text_to_paragraph
        (encodeParaBody [⟨"a", false, false⟩, ⟨"b", false, false⟩]) =
      [⟨"ab", false, false⟩] ∧
    ([⟨"ab", false, false⟩] : List Run) ≠ [⟨"a", false, false⟩, ⟨"b", false, false⟩] ∧
    apply_formatted_text_to_paragraph (encodeParaBody [⟨" ", false, false⟩]) = [] ∧
    apply_formatted_text_to_paragraph (encodeParaBody [⟨"<b>x</b>", false, false⟩]) =
      [⟨"x", true, false⟩] :=
  ⟨rfl, by decide, rfl, rfl⟩

/-- C9 amended: for every paragraph whose runs all have text containing no
`<` and containing at least one non-whitespace character, and in which no
two consecutive runs are both unformatted, decoding the encoded
formatting-tagged text reproduces exactly the original ordered sequence of
(text, bold, italic) runs. -/
theorem decode_encode_roundtrip (p : Para)
    (htext : ∀ r ∈ p, ∀ c ∈ r.text.data, c ≠ '<')
    (hws : ∀ r ∈ p, r.text.data.any (fun c => !isSpaceChar c) = true)
    (hadj : noAdjacentPlain p = true) :
    apply_formatted_text_to_paragraph (encodeParaBody p) = p := by
  rw [apply_formatted_text_to_paragraph, tokenize_encode p htext,
    decode_runToks p hws hadj]

/-- C9 amended, witness: a bold run followed by a plain run. -/
theorem decode_encode_roundtrip_witness :
    apply_formatted_text_to_paragraph
        (encodeParaBody [⟨"a", true, false⟩, ⟨"b", false, false⟩]) =
      [⟨"a", true, false⟩, ⟨"b", false, false⟩] :=
  decode_encode_roundtrip [⟨"a", true, false⟩, ⟨"b", false, false⟩]
    (by decide) (by decide) (by decide)

end DocProofreader

/-!
## Concrete evaluations

Sanity checks pinning the embedded definitions to the behaviour of the
source functions on small inputs (each verified against a hand trace of
the Python code).
-/

section ConcreteEvaluations
open DocProofreader
example : parse_chunk_size "5000w" = Except.ok 27500 := rfl
example : parse_chunk_size "30000c" = Except.ok 30000 := rfl
example : parse_chunk_size "1w" = Except.ok 5 := rfl
example : parse_chunk_size "0c" = Except.ok 0 := rfl
example : (parse_chunk_size "bogus").isOk = false := rfl
example : parse_chunk_size "AUTO" = Except.ok 0 := rfl
example : get_optimal_chunk_size "gpt-4" 100000 = 20000 := rfl
example : (validate_chunk_size 500 "m" 100000).1 = false := rfl
example : validate_chunk_size 24000 "gpt-4" 100000 =
    (true, "⚠️  Large chunk size (24000 chars). Optimal for gpt-4: 20000c") := rfl

example : docx_to_chunks [[⟨"hello", false, false⟩]] 100 = ["hello  \n"] := rfl
example : docx_to_chunks [] 100 = [] := rfl
example :
    docx_to_chunks [[⟨"a", true, false⟩], [⟨"b", false, true⟩]] 0 =
      ["<b>a</b>  \n", "<i>b</i>  \n"] := rfl
example :
    docx_to_chunks [[⟨"a", false, false⟩], [⟨"b", false, false⟩]] 100 =
      ["a  \nb  \n"] := rfl

example : apply_formatted_text_to_paragraph "ab" = [⟨"ab", false, false⟩] := rfl
example :
    apply_formatted_text_to_paragraph "<b>a</b>b" =
      [⟨"a", true, false⟩, ⟨"b", false, false⟩] := rfl
example :
    apply_formatted_text_to_paragraph "<b><i>t</i></b>" =
      [⟨"t", true, true⟩] := rfl
example : apply_formatted_text_to_paragraph "   " = [] := rfl
example :
    apply_formatted_text_to_paragraph (encodeParaBody [⟨"a", false, false⟩, ⟨"b", false, false⟩]) =
      [⟨"ab", false, false⟩] := rfl
example :
    apply_formatted_text_to_paragraph "<b>x</b><b>y</b>" =
      [⟨"x", true, false⟩, ⟨"y", true, false⟩] := rfl

example : aggregate_outputs [""] = "" := rfl
example : aggregate_outputs ["a", "", "b"] = "a  b" := rfl
example :
    process_chunk_with_llm (.ok "No errors were found.") = .ok "" := rfl
example :
    process_chunk_with_llm (.ok "No issues were found.") = .ok "No issues were found." := rfl
example :
    sequential_dispatch_report ["a", "b"]
      (fun i => if i = 1 then .error "boom" else .ok "x") = .error "boom" := rfl
example :
    parallel_dispatch_report ["a", "b"]
      (fun i => if i = 1 then .error "boom" else .ok "x") [1, 0] =
      [some "x", some "Error processing chunk 2: boom"] := rfl
example :
    parallel_dispatch_inline ["a", "b"]
      (fun i => if i = 1 then .error "boom" else .ok "x") [1, 0] =
      [some "x", some "b"] := rfl
end ConcreteEvaluations
